import Mathlib

/-!
Verification of the tight-lists Markdown formatter.

The rewrite engine is the awk program `process_markdown` in
`md-tight-lists.sh`; the scheduling, folder-rule resolution and guard
logic live in `main.ts` (`shouldAutoFormatFile`, `scheduleAutoFormat`,
`formatFile`, `runFormatter`, `runMdformat`, `hasActiveSelection`).
Lines of text are modelled as `List Char`; full document contents as
`List Char` including newline characters.
-/

namespace TightLists

/-- A line of text (one awk record, without its terminating newline). -/
abbrev Line := List Char

/-- POSIX `[[:space:]]` character class (C locale): space, tab, newline,
carriage return, vertical tab, form feed. -/
def isWS (c : Char) : Bool :=
  c == ' ' || c == '\t' || c == '\n' || c == '\r' || c == '\x0b' || c == '\x0c'

/-- The three-character metadata fence token `---` (matched by `/^---$/`). -/
def fenceLine : Line := ['-', '-', '-']

/-- The three unordered list marker characters `[-*+]`. -/
def isUnorderedMarker (c : Char) : Bool :=
  c == '-' || c == '*' || c == '+'

/-- The part of a line after its leading whitespace (`/^[[:space:]]*/`). -/
def afterIndent (l : Line) : Line := l.dropWhile isWS

/-- The indentation of a line: length of the `/^[[:space:]]*/` match. -/
def indentOf (l : Line) : Nat := (l.takeWhile isWS).length

/-- Does the line match `/^[[:space:]]*[-*+][[:space:]]/`? -/
def isUnorderedItem (l : Line) : Bool :=
  match afterIndent l with
  | m :: c :: _ => isUnorderedMarker m && isWS c
  | _ => false

/-- Does the line match `/^[[:space:]]*[0-9]+\.[[:space:]]/`? -/
def isOrderedItem (l : Line) : Bool :=
  let r := afterIndent l
  !(r.takeWhile Char.isDigit).isEmpty &&
    (match r.dropWhile Char.isDigit with
     | '.' :: c :: _ => isWS c
     | _ => false)

/-- The list-item guard of the awk program: either marker pattern matches. -/
def isListItem (l : Line) : Bool := isUnorderedItem l || isOrderedItem l

/-- The awk variable `marker`: the string `"ordered"` for ordered items,
the specific marker character for unordered items, `""` initially. -/
inductive Marker where
  | none
  | ordered
  | unordered (c : Char)
deriving DecidableEq, Repr

/-- The awk variable `list_class`: `"ordered"`, `"unordered"`, or `""`. -/
inductive ListClass where
  | none
  | ordered
  | unordered
deriving DecidableEq, Repr

/-- The `marker` extracted from a list-item line (ordered pattern tried
first, exactly as in the awk `if`/`else if` chain); meaningful only when
`isListItem` holds. -/
def markerOf (l : Line) : Marker :=
  if isOrderedItem l then .ordered
  else
    match afterIndent l with
    | c :: _ => .unordered c
    | [] => .unordered ' '

/-- The `list_class` extracted from a list-item line; meaningful only when
`isListItem` holds. -/
def classOf (l : Line) : ListClass :=
  if isOrderedItem l then .ordered else .unordered

/-- The awk program state carried across records.  `first` models
`NR == 1` for the upcoming record; `prev_indent` is written by the
program but never read. -/
structure AwkState where
  first : Bool
  in_frontmatter : Bool
  frontmatter_ended : Bool
  in_list : Bool
  prev_marker : Marker
  prev_indent : Int
  prev_list_class : ListClass
  last_line : Line
deriving DecidableEq, Repr

/-- The awk `BEGIN` state (uninitialised awk variables are `""`/`0`;
`prev_indent` is initialised to `-1`). -/
def initState : AwkState :=
  ⟨true, false, false, false, .none, -1, .none, []⟩

/-- The `need_separator` computation for a list-item line. -/
def needSeparator (s : AwkState) (indent : Nat) (marker : Marker)
    (lclass : ListClass) : Bool :=
  if s.in_list = false then
    s.first = false ∧ s.last_line ≠ []
  else if indent = 0 then
    marker ≠ s.prev_marker
  else
    lclass ≠ s.prev_list_class ∧ s.prev_list_class ≠ .none

/-- One awk record: the lines printed for it and the updated state.
Rule order follows the program: frontmatter open (`NR==1 && /^---$/`),
frontmatter close, frontmatter content, list item (each ending in
`next`, so `last_line` is not updated), then the default blocks which
close an open list, print, and set `last_line`. -/
def stepLine (s : AwkState) (x : Line) : List Line × AwkState :=
  if s.first = true ∧ x = fenceLine then
    ([x], { s with first := false, in_frontmatter := true })
  else if s.in_frontmatter = true ∧ x = fenceLine then
    ([x], { s with first := false, in_frontmatter := false,
                   frontmatter_ended := true })
  else if s.in_frontmatter = true then
    ([x], { s with first := false })
  else if isListItem x = true then
    let need := needSeparator s (indentOf x) (markerOf x) (classOf x)
    ((if need = true then [[], x] else [x]),
     { s with first := false, in_list := true, prev_marker := markerOf x,
              prev_indent := (indentOf x : Int),
              prev_list_class := classOf x })
  else
    let s1 := if s.in_list = true ∧ x ≠ [] then
        { s with in_list := false, prev_marker := .none,
                 prev_list_class := .none }
      else s
    ((if s.in_list = true ∧ x ≠ [] then [([] : Line)] else []) ++
       (if x ≠ [] ∨ s1.in_list = false then [x] else []),
     { s1 with first := false, last_line := x })

/-- Run the awk program from a given state over the remaining records. -/
def processLines (s : AwkState) : List Line → List Line
  | [] => []
  | x :: rest => (stepLine s x).1 ++ processLines (stepLine s x).2 rest

/-- The function `process_markdown`: the whole awk filter, as a function on the
sequence of input lines. -/
def process_markdown (ls : List Line) : List Line :=
  processLines initState ls

/-- The parser state while inside an open metadata block (reached right
after the opening fence): any number of content lines leaves it fixed. -/
def fmContentState : AwkState :=
  ⟨false, true, false, false, .none, -1, .none, []⟩

/-- The parser state right after the closing fence of the metadata
block. -/
def afterMetaState : AwkState :=
  ⟨false, false, true, false, .none, -1, .none, []⟩

/-- A state in the middle of a top-level `-` list block, used to
instantiate stateful lemmas at a concrete reachable point. -/
def inListState : AwkState :=
  ⟨false, false, false, true, .unordered '-', 0, .unordered, ['-', ' ', 'a']⟩

/-- Simulation relation between the rewriter state at some point of a
first pass and the state of a second pass that has consumed exactly the
output emitted so far: all components agree except that `last_line` may
differ while inside a list block (where it is never read), and a fresh
`NR = 1` state is never inside a list block. -/
def Rel (s1 s2 : AwkState) : Prop :=
  s1.first = s2.first ∧
  s1.in_frontmatter = s2.in_frontmatter ∧
  s1.frontmatter_ended = s2.frontmatter_ended ∧
  s1.in_list = s2.in_list ∧
  s1.prev_marker = s2.prev_marker ∧
  s1.prev_list_class = s2.prev_list_class ∧
  (s1.in_list = false → s1.last_line = s2.last_line) ∧
  (s1.first = true → s1.in_list = false)

/-- JavaScript whitespace (the characters removed by `trimEnd`/`trim`):
ASCII whitespace plus no-break space and the BOM/zero-width no-break
space, line and paragraph separators. -/
def jsWhitespace (c : Char) : Bool :=
  c == ' ' || c == '\t' || c == '\n' || c == '\r' || c == '\x0b' ||
    c == '\x0c' || c == '\u00A0' || c == '\uFEFF' || c == '\u2028' ||
    c == '\u2029'

/-- Split a character stream into awk records: records are separated by
`\n` and a final `\n` terminates the last record without starting an
empty one. -/
def splitLinesAux : List Char → List Char → List Line
  | acc, [] => [acc.reverse]
  | acc, c :: rest =>
    if c = '\n' then
      match rest with
      | [] => [acc.reverse]
      | _ :: _ => acc.reverse :: splitLinesAux [] rest
    else
      splitLinesAux (c :: acc) rest

/-- The records awk reads from a character stream (empty stream: no
records at all). -/
def splitLines (c : List Char) : List Line :=
  if c = [] then [] else splitLinesAux [] c

/-- The character stream produced by awk `print`: every emitted record is
followed by a newline. -/
def render : List Line → List Char
  | [] => []
  | l :: ls => l ++ '\n' :: render ls

/-- JavaScript `String.prototype.trimEnd`. -/
def trimEnd (c : List Char) : List Char :=
  (c.reverse.dropWhile jsWhitespace).reverse

/-- JavaScript `String.prototype.trim`. -/
def jsTrim (c : List Char) : List Char :=
  trimEnd (c.dropWhile jsWhitespace)

/-- Does the content end with a line terminator (`content.endsWith('\n')`)? -/
def endsWithNewline (c : List Char) : Bool :=
  c.getLast? == some '\n'

/-- The content transformation of `formatFile` (main.ts): append a final
newline if missing, run the formatter, and restore the original final
newline state by `trimEnd` when the input had none. -/
def formatFileContent (content : List Char) : List Char :=
  let contentToFormat :=
    if endsWithNewline content = true then content else content ++ ['\n']
  let formatted := render (process_markdown (splitLines contentToFormat))
  if endsWithNewline content = true then formatted else trimEnd formatted

/-- Depth as `folderPath.split('/').length` (JavaScript `split` on a single-char
separator yields one more piece than there are separators). -/
def pathDepth (p : Line) : Nat := p.count '/' + 1

/-- The `isInFolder` test of `shouldAutoFormatFile` (main.ts):
`filePath.startsWith(folderPath + '/') || filePath === folderPath ||
(filePath.startsWith(folderPath) && filePath.charAt(folderPath.length) === '/')`. -/
def isInFolder (filePath folderPath : Line) : Bool :=
  (folderPath ++ ['/']).isPrefixOf filePath || filePath == folderPath ||
    (folderPath.isPrefixOf filePath && filePath[folderPath.length]? == some '/')

/-- The specification's applicability predicate: the rule at folder path
P applies to document path D iff D equals P or D starts with P followed
by the path separator. -/
def appliesTo (filePath folderPath : Line) : Prop :=
  filePath = folderPath ∨ (folderPath ++ ['/']) <+: filePath

/-- The folder-rule loop of `shouldAutoFormatFile`: scan the rules,
keeping the enabled flag of the deepest applicable rule seen so far
(`depth > maxDepth` updates). -/
def shouldAutoFormatLoop (filePath : Line) :
    List (Line × Bool) → Int → Bool → Bool
  | [], _, shouldFormat => shouldFormat
  | (folderPath, enabled) :: rest, maxDepth, shouldFormat =>
    if isInFolder filePath folderPath = true then
      if maxDepth < (pathDepth folderPath : Int) then
        shouldAutoFormatLoop filePath rest (pathDepth folderPath : Int) enabled
      else
        shouldAutoFormatLoop filePath rest maxDepth shouldFormat
    else
      shouldAutoFormatLoop filePath rest maxDepth shouldFormat

/-- The resolver `shouldAutoFormatFile` (main.ts): start from the global
`autoFormatEnabled` default with `maxDepth = -1` and fold over the
folder-rule table. -/
def shouldAutoFormatFile (folderRules : List (Line × Bool))
    (autoFormatEnabled : Bool) (filePath : Line) : Bool :=
  shouldAutoFormatLoop filePath folderRules (-1) autoFormatEnabled

def notesPath : Line := ['N', 'o', 't', 'e', 's']

def notesDailyPath : Line := notesPath ++ ['/', 'D', 'a', 'i', 'l', 'y']

def demoRules : List (Line × Bool) := [(notesPath, false), (notesDailyPath, true)]

def dailyNote : Line := notesDailyPath ++ ['/', 't', 'o', 'd', 'a', 'y', '.', 'm', 'd']

def otherNote : Line := notesPath ++ ['/', 'o', 't', 'h', 'e', 'r', '.', 'm', 'd']

def outsideNote : Line := ['O', 't', 'h', 'e', 'r', '/', 'x', '.', 'm', 'd']

/-- Typed failures of the external formatter adapter (`runMdformat`):
spawn error, non-zero exit code, or empty output. -/
inductive FmtError where
  | spawnError (message : Line)
  | exitCode (code : Int) (stderr : Line)
  | emptyOutput
deriving DecidableEq, Repr

/-- The adapter `runMdformat` (main.ts): reject on spawn error; on exit code 0 reject
empty/whitespace-only stdout (`!stdout || stdout.trim() === ''`), else
resolve stdout; reject on non-zero exit code. -/
def runMdformat (spawnErr : Option Line) (code : Int)
    (stdout stderr : Line) : Except FmtError Line :=
  match spawnErr with
  | some msg => .error (.spawnError msg)
  | none =>
    if code = 0 then
      if stdout = [] ∨ jsTrim stdout = [] then .error .emptyOutput
      else .ok stdout
    else .error (.exitCode code stderr)

/-- The chooser `runFormatter` (main.ts): use mdformat exactly when
`settings.useMdformat && mdformatAvailable && mdformatPath`; otherwise
the included tight-lists script. -/
def runFormatter (useMdformat mdformatAvailable mdformatPathSet : Bool)
    (mdformatResult scriptResult : Except FmtError Line) :
    Except FmtError Line :=
  if useMdformat && mdformatAvailable && mdformatPathSet then mdformatResult
  else scriptResult

/-- Observable document-store effects of one `formatFile` invocation. -/
inductive FileEvent where
  | guardAdd
  | modifyContent (newContent : Line)
  | guardRemove
deriving DecidableEq, Repr

/-- The effect trace of `formatFile` (main.ts): add the path to
`currentlyFormatting`, then (inside `try`) modify the file only when the
formatter succeeded and produced a change, and (in `finally`) always
remove the path from `currentlyFormatting`. -/
def formatFileTrace (content : Line)
    (formatterResult : Except FmtError Line) : List FileEvent :=
  .guardAdd ::
    ((match formatterResult with
      | .ok formatted =>
        let result :=
          if endsWithNewline content = true then formatted
          else trimEnd formatted
        if result ≠ content then [.modifyContent result] else []
      | .error _ => []) ++ [.guardRemove])

/-- Scheduler state for one document path: whether a debounce timer is
armed (`formatDebounceTimers` has an entry), whether the path is in
`currentlyFormatting`, and how many `formatFile` invocations are
currently executing. -/
structure SchedulerState where
  timerArmed : Bool
  guard : Bool
  inflight : Nat
deriving DecidableEq, Repr

/-- Events that can touch the per-document scheduling state.  Boolean
parameters carry the environment observed by the handler: the resolved
`shouldAutoFormatFile` policy (together with the relevant settings
toggles), whether the active view shows this file, and whether its
editor has a non-empty selection when the timer fires. -/
inductive SchedEvent where
  | editorChange (shouldFormat : Bool)
  | timerFire (shouldFormat viewMatches selectionActive : Bool)
  | manualFormat
  | eventTrigger (shouldFormat : Bool)
  | formatFinish
deriving DecidableEq, Repr

/-- One scheduler transition (main.ts): `editor-change` skips guarded
files, else (re)arms the timer; a timer fire reschedules on an active
selection, else starts `formatFile` with no guard check;
`formatCurrentFile` starts `formatFile` unconditionally;
`triggerEventBasedFormat` starts it only when the path is not guarded;
and a finishing `formatFile` always releases the guard. -/
def schedStep (s : SchedulerState) : SchedEvent → SchedulerState
  | .editorChange shouldFormat =>
    if s.guard then s
    else if shouldFormat then { s with timerArmed := true }
    else s
  | .timerFire shouldFormat viewMatches selectionActive =>
    if s.timerArmed = false then s
    else if shouldFormat then
      if viewMatches && selectionActive then { s with timerArmed := true }
      else { s with timerArmed := false, guard := true,
                    inflight := s.inflight + 1 }
    else { s with timerArmed := false }
  | .manualFormat => { s with guard := true, inflight := s.inflight + 1 }
  | .eventTrigger shouldFormat =>
    if shouldFormat = false then s
    else if s.guard then s
    else { s with guard := true, inflight := s.inflight + 1 }
  | .formatFinish =>
    if s.inflight = 0 then s
    else { s with inflight := s.inflight - 1, guard := false }

def initSched : SchedulerState := ⟨false, false, 0⟩

/-- Run the scheduler over a sequence of events. -/
def runSched (events : List SchedEvent) : SchedulerState :=
  events.foldl schedStep initSched

/-- Invariant for runs without manual commands and timer fires. -/
def SchedInvA (s : SchedulerState) : Prop :=
  s.inflight ≤ 1 ∧ (s.guard = false → s.inflight = 0)

/-- Invariant for runs without manual commands and event triggers. -/
def SchedInvB (s : SchedulerState) : Prop :=
  s.inflight ≤ 1 ∧ (s.guard = false → s.inflight = 0) ∧
    (s.guard = true → s.timerArmed = false)

/-- What the debounce-timer callback does on firing. -/
inductive TimerOutcome where
  | rescheduled
  | formatted
  | skipped
deriving DecidableEq, Repr

/-- The decision of the timer callback in `scheduleAutoFormat`
(main.ts): re-check the policy; with an active selection in the matching
view, delete the timer entry and re-arm a fresh timer; otherwise run
`formatFile`. -/
def timerFireOutcome (shouldFormat viewMatchesFile selectionActive : Bool) :
    TimerOutcome :=
  if shouldFormat then
    if viewMatchesFile && selectionActive then .rescheduled
    else .formatted
  else .skipped

/-- The test `hasActiveSelection` (main.ts): `editor.getSelection().length > 0`. -/
def hasActiveSelection (selection : Line) : Bool :=
  decide (0 < selection.length)

theorem processLines_nil (s : AwkState) : processLines s [] = [] := rfl

theorem processLines_cons (s : AwkState) (x : Line) (t : List Line) :
    processLines s (x :: t) =
      (stepLine s x).1 ++ processLines (stepLine s x).2 t := rfl

theorem isListItem_nil : isListItem [] = false := rfl

theorem isListItem_fence : isListItem fenceLine = false := by decide

theorem fence_ne_nil : fenceLine ≠ [] := by decide

theorem ne_fence_of_isListItem {x : Line} (hx : isListItem x = true) :
    x ≠ fenceLine := by
  intro h
  rw [h, isListItem_fence] at hx
  exact Bool.false_ne_true hx

theorem stepLine_fm_open (s : AwkState) (h1 : s.first = true) :
    stepLine s fenceLine =
      ([fenceLine], { s with first := false, in_frontmatter := true }) := by
  unfold stepLine
  rw [if_pos ⟨h1, rfl⟩]

theorem stepLine_fm_close (s : AwkState) (h1 : s.first = false)
    (h2 : s.in_frontmatter = true) :
    stepLine s fenceLine =
      ([fenceLine],
       { s with first := false, in_frontmatter := false,
                frontmatter_ended := true }) := by
  unfold stepLine
  rw [if_neg (fun hc => by rw [h1] at hc; exact Bool.false_ne_true hc.1),
      if_pos ⟨h2, rfl⟩]

theorem stepLine_fm_content (s : AwkState) (x : Line)
    (h2 : s.in_frontmatter = true) (hx : x ≠ fenceLine) :
    stepLine s x = ([x], { s with first := false }) := by
  unfold stepLine
  rw [if_neg (fun hc => hx hc.2), if_neg (fun hc => hx hc.2), if_pos h2]

theorem stepLine_item (s : AwkState) (x : Line)
    (hfm : s.in_frontmatter = false) (hx : isListItem x = true) :
    stepLine s x =
      ((if needSeparator s (indentOf x) (markerOf x) (classOf x) = true
          then [[], x] else [x]),
       { s with first := false, in_list := true, prev_marker := markerOf x,
                prev_indent := (indentOf x : Int),
                prev_list_class := classOf x }) := by
  have hne : x ≠ fenceLine := ne_fence_of_isListItem hx
  unfold stepLine
  rw [if_neg (fun hc => hne hc.2), if_neg (fun hc => hne hc.2),
      if_neg (fun hc => by rw [hfm] at hc; exact Bool.false_ne_true hc),
      if_pos hx]

theorem stepLine_blank_inList (s : AwkState)
    (hfm : s.in_frontmatter = false) (hil : s.in_list = true) :
    stepLine s [] = ([], { s with first := false, last_line := [] }) := by
  simp [stepLine, hfm, hil, fenceLine, isListItem_nil]

theorem stepLine_prose_inList (s : AwkState) (x : Line)
    (hfm : s.in_frontmatter = false) (hx : isListItem x = false)
    (hne : x ≠ []) (hfst : ¬(s.first = true ∧ x = fenceLine))
    (hil : s.in_list = true) :
    stepLine s x =
      ([[], x],
       { s with first := false, in_list := false, prev_marker := .none,
                prev_list_class := .none, last_line := x }) := by
  simp [stepLine, hfm, hx, hne, hfst, hil]

theorem stepLine_notinList_default (s : AwkState) (x : Line)
    (hfm : s.in_frontmatter = false) (hx : isListItem x = false)
    (hfst : ¬(s.first = true ∧ x = fenceLine))
    (hil : s.in_list = false) :
    stepLine s x = ([x], { s with first := false, last_line := x }) := by
  simp [stepLine, hfm, hx, hfst, hil]

theorem processLines_step (s : AwkState) (x : Line) (out : List Line)
    (s' : AwkState) (h : stepLine s x = (out, s')) (t : List Line) :
    processLines s (x :: t) = out ++ processLines s' t := by
  rw [processLines_cons, h]

/-- The computation `needSeparator` only reads `in_list`, `prev_marker`, `prev_list_class`,
and (when not in a list) `first` and `last_line`. -/
theorem needSeparator_congr (s s' : AwkState) (i : Nat) (m : Marker)
    (c : ListClass) (hil : s.in_list = s'.in_list)
    (hpm : s.prev_marker = s'.prev_marker)
    (hpc : s.prev_list_class = s'.prev_list_class)
    (hrest : s.in_list = false → s.first = s'.first ∧ s.last_line = s'.last_line) :
    needSeparator s i m c = needSeparator s' i m c := by
  unfold needSeparator
  by_cases h : s.in_list = false
  · obtain ⟨h1, h2⟩ := hrest h
    have h' : s'.in_list = false := hil.symm.trans h
    rw [if_pos h, if_pos h', h1, h2]
  · have h' : ¬(s'.in_list = false) := fun hq => h (hil.trans hq)
    rw [if_neg h, if_neg h', hpm, hpc]

/-- Key step of the idempotence proof: a second pass, run from a related
state, reproduces verbatim the chunk of output the first pass emits for
one input line, and the resulting states are again related. -/
theorem step_rel (s1 s2 : AwkState) (x : Line) (h : Rel s1 s2) :
    ∃ s2' : AwkState,
      (∀ t : List Line,
        processLines s2 ((stepLine s1 x).1 ++ t) =
          (stepLine s1 x).1 ++ processLines s2' t) ∧
      Rel (stepLine s1 x).2 s2' := by
  obtain ⟨hf, hfm, hfe, hil, hpm, hpc, hll, hinv⟩ := h
  by_cases hA : s1.first = true ∧ x = fenceLine
  · -- frontmatter opens
    obtain ⟨hA1, hA2⟩ := hA
    subst hA2
    rw [stepLine_fm_open s1 hA1]
    refine ⟨{ s2 with first := false, in_frontmatter := true },
      fun t => ?_, ?_⟩
    · show processLines s2 (fenceLine :: t) = fenceLine :: _
      rw [processLines_step s2 fenceLine _ _
          (stepLine_fm_open s2 (hf.symm.trans hA1)) t]
      rfl
    · exact ⟨rfl, rfl, hfe, hil, hpm, hpc, hll,
             fun hq => Bool.noConfusion hq⟩
  · by_cases hB : s1.in_frontmatter = true ∧ x = fenceLine
    · -- frontmatter closes
      obtain ⟨hB1, hB2⟩ := hB
      subst hB2
      have hA1 : s1.first = false := by
        cases hq : s1.first with
        | false => rfl
        | true => exact absurd ⟨hq, rfl⟩ hA
      rw [stepLine_fm_close s1 hA1 hB1]
      refine ⟨{ s2 with first := false, in_frontmatter := false,
                        frontmatter_ended := true }, fun t => ?_, ?_⟩
      · show processLines s2 (fenceLine :: t) = fenceLine :: _
        rw [processLines_step s2 fenceLine _ _
            (stepLine_fm_close s2 (hf.symm.trans hA1) (hfm.symm.trans hB1)) t]
        rfl
      · exact ⟨rfl, rfl, rfl, hil, hpm, hpc, hll,
               fun hq => Bool.noConfusion hq⟩
    · by_cases hC : s1.in_frontmatter = true
      · -- frontmatter content
        have hxne : x ≠ fenceLine := fun he => hB ⟨hC, he⟩
        rw [stepLine_fm_content s1 x hC hxne]
        refine ⟨{ s2 with first := false }, fun t => ?_, ?_⟩
        · show processLines s2 (x :: t) = x :: _
          rw [processLines_step s2 x _ _
              (stepLine_fm_content s2 x (hfm.symm.trans hC) hxne) t]
          rfl
        · exact ⟨rfl, hfm, hfe, hil, hpm, hpc, hll,
                 fun hq => Bool.noConfusion hq⟩
      · have hfm1 : s1.in_frontmatter = false := by
          cases hq : s1.in_frontmatter with
          | false => rfl
          | true => exact absurd hq hC
        have hfm2 : s2.in_frontmatter = false := hfm.symm.trans hfm1
        by_cases hD : isListItem x = true
        · -- list item
          rw [stepLine_item s1 x hfm1 hD]
          cases hNS : needSeparator s1 (indentOf x) (markerOf x) (classOf x) with
          | false =>
            refine ⟨{ s2 with first := false, in_list := true,
                              prev_marker := markerOf x,
                              prev_indent := (indentOf x : Int),
                              prev_list_class := classOf x },
              fun t => ?_, ?_⟩
            · show processLines s2 (x :: t) = x :: _
              rw [processLines_step s2 x _ _ (stepLine_item s2 x hfm2 hD) t]
              have hNS2 : needSeparator s2 (indentOf x) (markerOf x)
                  (classOf x) = false := by
                rw [← needSeparator_congr s1 s2 _ _ _ hil hpm hpc
                    (fun hq => ⟨hf, hll hq⟩)]
                exact hNS
              rw [hNS2]
              rfl
            · exact ⟨rfl, hfm, hfe, rfl, rfl, rfl,
                     fun hq => Bool.noConfusion hq,
                     fun hq => Bool.noConfusion hq⟩
          | true =>
            cases hF : s1.in_list with
            | true =>
              have hil2 : s2.in_list = true := hil.symm.trans hF
              refine ⟨{ s2 with first := false, last_line := [],
                                in_list := true, prev_marker := markerOf x,
                                prev_indent := (indentOf x : Int),
                                prev_list_class := classOf x },
                fun t => ?_, ?_⟩
              · show processLines s2 ([] :: x :: t) = [] :: x :: _
                rw [processLines_step s2 [] _ _
                    (stepLine_blank_inList s2 hfm2 hil2) (x :: t)]
                rw [processLines_step _ x _ _
                    (stepLine_item { s2 with first := false, last_line := [] }
                      x hfm2 hD) t]
                have hNS2 : needSeparator
                    { s2 with first := false, last_line := [] }
                    (indentOf x) (markerOf x) (classOf x) = true := by
                  have hc := needSeparator_congr s1
                    { s2 with first := false, last_line := [] }
                    (indentOf x) (markerOf x) (classOf x) hil hpm hpc
                    (fun hq => Bool.noConfusion (hF.symm.trans hq))
                  exact hc.symm.trans hNS
                rw [hNS2]
                rfl
              · exact ⟨rfl, hfm, hfe, rfl, rfl, rfl,
                       fun hq => Bool.noConfusion hq,
                       fun hq => Bool.noConfusion hq⟩
            | false =>
              have hil2 : s2.in_list = false := hil.symm.trans hF
              have hneed : s1.first = false ∧ s1.last_line ≠ [] := by
                have h' := hNS
                unfold needSeparator at h'
                rw [if_pos hF] at h'
                exact of_decide_eq_true h'
              refine ⟨{ s2 with first := false, last_line := [],
                                in_list := true, prev_marker := markerOf x,
                                prev_indent := (indentOf x : Int),
                                prev_list_class := classOf x },
                fun t => ?_, ?_⟩
              · show processLines s2 ([] :: x :: t) = [] :: x :: _
                rw [processLines_step s2 [] _ _
                    (stepLine_notinList_default s2 [] hfm2 isListItem_nil
                      (fun hc => fence_ne_nil hc.2.symm) hil2) (x :: t)]
                rw [processLines_step _ x _ _
                    (stepLine_item { s2 with first := false, last_line := [] }
                      x hfm2 hD) t]
                have hNS2 : needSeparator
                    { s2 with first := false, last_line := [] }
                    (indentOf x) (markerOf x) (classOf x) = false := by
                  simp [needSeparator, hil2]
                rw [hNS2]
                rfl
              · exact ⟨rfl, hfm, hfe, rfl, rfl, rfl,
                       fun hq => Bool.noConfusion hq,
                       fun hq => Bool.noConfusion hq⟩
        · -- not a list item: default blocks
          have hD' : isListItem x = false := by
            cases hq : isListItem x with
            | false => rfl
            | true => exact absurd hq hD
          by_cases hE : s1.in_list = true ∧ x ≠ []
          · -- closes an open list block
            rw [stepLine_prose_inList s1 x hfm1 hD' hE.2 hA hE.1]
            have hil2 : s2.in_list = true := hil.symm.trans hE.1
            refine ⟨{ s2 with first := false, in_list := false,
                              prev_marker := .none, prev_list_class := .none,
                              last_line := x }, fun t => ?_, ?_⟩
            · show processLines s2 ([] :: x :: t) = [] :: x :: _
              rw [processLines_step s2 [] _ _
                  (stepLine_blank_inList s2 hfm2 hil2) (x :: t)]
              rw [processLines_step _ x _ _
                  (stepLine_prose_inList { s2 with first := false,
                                                   last_line := [] }
                    x hfm2 hD' hE.2 (fun hc => Bool.noConfusion hc.1) hil2) t]
              rfl
            · exact ⟨rfl, hfm, hfe, rfl, rfl, rfl, fun _ => rfl,
                     fun hq => Bool.noConfusion hq⟩
          · cases hF : s1.in_list with
            | true =>
              -- blank line while inside a list block: dropped
              have hxnil : x = [] := by
                by_contra hq
                exact hE ⟨hF, hq⟩
              subst hxnil
              rw [stepLine_blank_inList s1 hfm1 hF]
              have hf1 : s1.first = false := by
                cases hq : s1.first with
                | false => rfl
                | true => exact Bool.noConfusion ((hinv hq).symm.trans hF)
              refine ⟨s2, fun t => ?_, ?_⟩
              · rfl
              · exact ⟨(hf.symm.trans hf1).symm, hfm, hfe, hil, hpm, hpc,
                       fun hq => Bool.noConfusion (hF.symm.trans hq),
                       fun hq => Bool.noConfusion hq⟩
            | false =>
              have hil2 : s2.in_list = false := hil.symm.trans hF
              rw [stepLine_notinList_default s1 x hfm1 hD' hA hF]
              refine ⟨{ s2 with first := false, last_line := x },
                fun t => ?_, ?_⟩
              · show processLines s2 (x :: t) = x :: _
                rw [processLines_step s2 x _ _
                    (stepLine_notinList_default s2 x hfm2 hD'
                      (fun hc => hA ⟨hf.trans hc.1, hc.2⟩) hil2) t]
                rfl
              · exact ⟨rfl, hfm, hfe, hil, hpm, hpc, fun _ => rfl,
                       fun hq => Bool.noConfusion hq⟩

/-- A second pass acts as the identity on the output of a first pass run
from any pair of related states. -/
theorem processLines_fix (ls : List Line) : ∀ s1 s2 : AwkState, Rel s1 s2 →
    processLines s2 (processLines s1 ls) = processLines s1 ls := by
  induction ls with
  | nil => intro s1 s2 _; rfl
  | cons x rest ih =>
    intro s1 s2 h
    obtain ⟨s2', hrun, hrel⟩ := step_rel s1 s2 x h
    rw [processLines_cons s1 x rest,
        hrun (processLines (stepLine s1 x).2 rest), ih _ _ hrel]

/-- C1: the tight-list rewrite is idempotent — running the rewrite
engine twice over any input line sequence yields the same output as
running it once: `rewrite(rewrite(X)) = rewrite(X)`. -/
theorem rewrite_idempotent (ls : List Line) :
    process_markdown (process_markdown ls) = process_markdown ls :=
  processLines_fix ls initState initState
    ⟨rfl, rfl, rfl, rfl, rfl, rfl, fun _ => rfl, fun _ => rfl⟩

/-- Processing a list item right after another list item at top level:
the chunk emitted for the second item is a lone line when the markers
agree and a blank separator plus the line when they differ. -/
theorem stepLine_item_after_item (s : AwkState) (l1 l2 : Line)
    (hfm : s.in_frontmatter = false) (h1 : isListItem l1 = true)
    (h2 : isListItem l2 = true) (hi2 : indentOf l2 = 0) :
    (stepLine (stepLine s l1).2 l2).1 =
      if markerOf l2 = markerOf l1 then [l2] else [[], l2] := by
  rw [stepLine_item s l1 hfm h1]
  rw [stepLine_item
      { s with first := false, in_list := true,
               prev_marker := markerOf l1,
               prev_indent := (indentOf l1 : Int),
               prev_list_class := classOf l1 } l2 hfm h2]
  by_cases hM : markerOf l2 = markerOf l1
  · rw [if_pos hM]
    have hn : needSeparator
        { s with first := false, in_list := true,
                 prev_marker := markerOf l1,
                 prev_indent := (indentOf l1 : Int),
                 prev_list_class := classOf l1 }
        (indentOf l2) (markerOf l2) (classOf l2) = false := by
      simp [needSeparator, hi2, hM]
    rw [hn]
    rfl
  · rw [if_neg hM]
    have hn : needSeparator
        { s with first := false, in_list := true,
                 prev_marker := markerOf l1,
                 prev_indent := (indentOf l1 : Int),
                 prev_list_class := classOf l1 }
        (indentOf l2) (markerOf l2) (classOf l2) = true := by
      simp [needSeparator, hi2, hM]
    rw [hn]
    rfl

/-- C2: outside the metadata block, for two adjacent top-level
(indentation 0) list items the rewriter emits exactly one blank line
between them when their marker classes differ and none when they agree:
the chunk for the second item is `[blank, l2]` or `[l2]` accordingly,
compared against the marker of the immediately preceding item. -/
theorem top_level_marker_separation (s : AwkState) (l1 l2 : Line)
    (rest : List Line) (hfm : s.in_frontmatter = false)
    (h1 : isListItem l1 = true) (hi1 : indentOf l1 = 0)
    (h2 : isListItem l2 = true) (hi2 : indentOf l2 = 0) :
    ((stepLine s l1).1 = [l1] ∨ (stepLine s l1).1 = [[], l1]) ∧
    processLines s (l1 :: l2 :: rest) =
      (stepLine s l1).1 ++
        ((if markerOf l2 = markerOf l1 then [l2] else [[], l2]) ++
          processLines (stepLine (stepLine s l1).2 l2).2 rest) := by
  constructor
  · rw [stepLine_item s l1 hfm h1]
    cases hN : needSeparator s (indentOf l1) (markerOf l1) (classOf l1) with
    | false => exact Or.inl rfl
    | true => exact Or.inr rfl
  · rw [processLines_cons, processLines_cons,
        stepLine_item_after_item s l1 l2 hfm h1 h2 hi2]

/-- Witness for C2 at a concrete input: `- a` followed by `* b` from the
initial state. -/
theorem top_level_marker_separation_witness :
    ((stepLine initState ['-', ' ', 'a']).1 = [['-', ' ', 'a']] ∨
      (stepLine initState ['-', ' ', 'a']).1 = [[], ['-', ' ', 'a']]) ∧
    processLines initState (['-', ' ', 'a'] :: ['*', ' ', 'b'] :: []) =
      (stepLine initState ['-', ' ', 'a']).1 ++
        ((if markerOf ['*', ' ', 'b'] = markerOf ['-', ' ', 'a']
            then [['*', ' ', 'b']] else [[], ['*', ' ', 'b']]) ++
          processLines
            (stepLine (stepLine initState ['-', ' ', 'a']).2
              ['*', ' ', 'b']).2 []) :=
  top_level_marker_separation initState ['-', ' ', 'a'] ['*', ' ', 'b'] []
    rfl (by decide) (by decide) (by decide) (by decide)

/-- Inside the metadata block, every line before the closing fence is
emitted unchanged and the state is unchanged; the closing fence is also
emitted unchanged and leads to `afterMetaState`. -/
theorem fm_content_run : ∀ (mid : List Line), fenceLine ∉ mid →
    ∀ (rest : List Line),
      processLines fmContentState (mid ++ fenceLine :: rest) =
        mid ++ fenceLine :: processLines afterMetaState rest := by
  intro mid
  induction mid with
  | nil =>
    intro _ rest
    show processLines fmContentState (fenceLine :: rest) = _
    rw [processLines_step fmContentState fenceLine _ _
        (stepLine_fm_close fmContentState rfl rfl) rest]
    rfl
  | cons y mid ih =>
    intro hmid rest
    have hy : y ≠ fenceLine := by
      intro h
      exact hmid (by rw [h]; exact List.mem_cons_self _ _)
    have hmid' : fenceLine ∉ mid := fun hq => hmid (List.mem_cons_of_mem _ hq)
    show processLines fmContentState (y :: (mid ++ fenceLine :: rest)) = _
    rw [processLines_step fmContentState y _ _
        (stepLine_fm_content fmContentState y rfl hy)
        (mid ++ fenceLine :: rest)]
    show y :: processLines fmContentState (mid ++ fenceLine :: rest) = _
    rw [ih hmid' rest]
    rfl

/-- C3: when the first line is the fence token and a later line is the
fence again, every line from the opening fence through the closing fence
is emitted unchanged, whatever the content in between; and once the
block has been opened and closed, the parser state has
`in_frontmatter = false, first = false` and every further step keeps it
that way, so a later fence-shaped line never reopens metadata mode. -/
theorem metadata_block_preserved (mid rest : List Line)
    (hmid : fenceLine ∉ mid) :
    process_markdown (fenceLine :: (mid ++ fenceLine :: rest)) =
      fenceLine :: (mid ++ fenceLine :: processLines afterMetaState rest) ∧
    afterMetaState.in_frontmatter = false ∧ afterMetaState.first = false ∧
    (∀ (s : AwkState) (x : Line), s.first = false →
      s.in_frontmatter = false →
      (stepLine s x).2.first = false ∧
        (stepLine s x).2.in_frontmatter = false) := by
  refine ⟨?_, rfl, rfl, ?_⟩
  · show processLines initState (fenceLine :: (mid ++ fenceLine :: rest)) = _
    rw [processLines_step initState fenceLine _ _
        (stepLine_fm_open initState rfl) (mid ++ fenceLine :: rest)]
    show fenceLine :: processLines fmContentState (mid ++ fenceLine :: rest)
        = _
    rw [fm_content_run mid hmid rest]
  · intro s x h1 h2
    by_cases hx : isListItem x = true
    · simp [stepLine, h1, h2, hx]
    · by_cases hl : s.in_list = true ∧ x ≠ []
      · simp [stepLine, h1, h2, hx, hl]
      · simp [stepLine, h1, h2, hx, hl]

/-- Consuming blank lines while inside a list block emits nothing and
keeps the state inside the block. -/
theorem blanks_in_list_run (k : Nat) : ∀ (s : AwkState),
    s.in_frontmatter = false → s.in_list = true → s.first = false →
    ∀ t : List Line, ∃ s' : AwkState,
      processLines s (List.replicate k [] ++ t) = processLines s' t ∧
      s'.in_frontmatter = false ∧ s'.in_list = true ∧ s'.first = false := by
  induction k with
  | zero => exact fun s h1 h2 h3 t => ⟨s, rfl, h1, h2, h3⟩
  | succ k ih =>
    intro s h1 h2 h3 t
    rw [List.replicate_succ, List.cons_append]
    obtain ⟨s', he, hh1, hh2, hh3⟩ :=
      ih { s with first := false, last_line := [] } h1 h2 rfl t
    refine ⟨s', ?_, hh1, hh2, hh3⟩
    rw [processLines_step s [] _ _ (stepLine_blank_inList s h1 h2)
        (List.replicate k [] ++ t)]
    simpa using he

/-- Consuming blank lines while not inside a list block emits them all
verbatim. -/
theorem blanks_not_in_list_run (k : Nat) : ∀ (s : AwkState),
    s.in_frontmatter = false → s.in_list = false →
    ∀ t : List Line,
      processLines s (List.replicate (k + 1) [] ++ t) =
        List.replicate (k + 1) [] ++
          processLines { s with first := false, last_line := [] } t := by
  induction k with
  | zero =>
    intro s h1 h2 t
    show processLines s ([] :: t) = [] :: processLines _ t
    rw [processLines_step s [] _ _
        (stepLine_notinList_default s [] h1 isListItem_nil
          (fun hc => fence_ne_nil hc.2.symm) h2) t]
    rfl
  | succ k ih =>
    intro s h1 h2 t
    show processLines s ([] :: (List.replicate (k + 1) [] ++ t)) =
      [] :: (List.replicate (k + 1) [] ++ processLines _ t)
    rw [processLines_step s [] _ _
        (stepLine_notinList_default s [] h1 isListItem_nil
          (fun hc => fence_ne_nil hc.2.symm) h2)
        (List.replicate (k + 1) [] ++ t)]
    rw [ih { s with first := false, last_line := [] } h1 h2 t]
    rfl

/-- Blank lines followed by a list item, starting outside a list block:
the blanks pass through and the item gets no extra separator (the blank
reset `last_line`). -/
theorem blanks_then_item (k : Nat) (s : AwkState)
    (hfm : s.in_frontmatter = false) (hil : s.in_list = false)
    (l2 : Line) (hl2 : isListItem l2 = true) (rest : List Line) :
    processLines s (List.replicate (k + 1) [] ++ l2 :: rest) =
      List.replicate (k + 1) [] ++ l2 ::
        processLines
          (stepLine { s with first := false, last_line := [] } l2).2 rest := by
  rw [blanks_not_in_list_run k s hfm hil (l2 :: rest)]
  suffices h : processLines { s with first := false, last_line := [] }
      (l2 :: rest) =
      l2 :: processLines
        (stepLine { s with first := false, last_line := [] } l2).2 rest by
    rw [h]
  rw [processLines_cons]
  rw [stepLine_item { s with first := false, last_line := [] } l2 hfm hl2]
  have hn : needSeparator { s with first := false, last_line := [] }
      (indentOf l2) (markerOf l2) (classOf l2) = false := by
    simp [needSeparator, hil]
  rw [hn]
  rfl

/-- C4 counterexample: two blank lines between prose and a following
list block are both kept (the input is a fixed point), so the
prose-to-list boundary has two blank lines, not exactly one. -/
theorem boundary_blank_counterexample :
    process_markdown [['x'], [], [], ['-', ' ', 'a']] =
      [['x'], [], [], ['-', ' ', 'a']] ∧
    (process_markdown [['x'], [], [], ['-', ' ', 'a']]).count ([] : Line) = 2 ∧
    ¬(2 = 1) :=
  ⟨by decide, by decide, by decide⟩

/-- C4 amended: a list block immediately followed by non-blank prose has
exactly one blank line at that boundary whatever the input had; a list
block immediately preceded by prose with no blank line in between gets
exactly one blank line inserted; but one or more input blank lines
between prose and a following list block are passed through unchanged
(and no separator is added), so that boundary keeps as many blank lines
as the input had. -/
theorem boundary_blank_amended :
    (∀ (s : AwkState) (l1 l2 : Line) (rest : List Line),
        s.in_frontmatter = false → s.first = false → l1 ≠ [] →
        isListItem l1 = false → isListItem l2 = true →
        ∃ s' : AwkState,
          processLines s (l1 :: l2 :: rest) =
            (if s.in_list = true then [[], l1] else [l1]) ++
              [] :: l2 :: processLines s' rest) ∧
    (∀ (k : Nat) (s : AwkState) (l : Line) (rest : List Line),
        s.in_frontmatter = false → s.first = false → s.in_list = true →
        l ≠ [] → isListItem l = false →
        ∃ s' : AwkState,
          processLines s (List.replicate k [] ++ l :: rest) =
            [] :: l :: processLines s' rest) ∧
    (∀ (k : Nat) (s : AwkState) (l1 l2 : Line) (rest : List Line),
        s.in_frontmatter = false → s.first = false → l1 ≠ [] →
        isListItem l1 = false → isListItem l2 = true →
        ∃ s' : AwkState,
          processLines s (l1 :: (List.replicate (k + 1) [] ++ l2 :: rest)) =
            (if s.in_list = true then [[], l1] else [l1]) ++
              (List.replicate (k + 1) [] ++ l2 :: processLines s' rest)) := by
  refine ⟨?_, ?_, ?_⟩
  · intro s l1 l2 rest hfm hfirst hne hl1 hl2
    by_cases hil : s.in_list = true
    · rw [if_pos hil]
      refine ⟨(stepLine { s with first := false, in_list := false,
                                 prev_marker := .none,
                                 prev_list_class := .none,
                                 last_line := l1 } l2).2, ?_⟩
      rw [processLines_step s l1 _ _
          (stepLine_prose_inList s l1 hfm hl1 hne
            (fun hc => Bool.noConfusion (hfirst.symm.trans hc.1)) hil)
          (l2 :: rest)]
      rw [processLines_cons]
      rw [stepLine_item { s with first := false, in_list := false,
                                 prev_marker := .none,
                                 prev_list_class := .none,
                                 last_line := l1 } l2 hfm hl2]
      have hn : needSeparator { s with first := false, in_list := false,
                                       prev_marker := .none,
                                       prev_list_class := .none,
                                       last_line := l1 }
          (indentOf l2) (markerOf l2) (classOf l2) = true := by
        simp [needSeparator, hne]
      rw [hn]
      rfl
    · have hil' : s.in_list = false := by
        cases hq : s.in_list with
        | false => rfl
        | true => exact absurd hq hil
      rw [if_neg hil]
      refine ⟨(stepLine { s with first := false, last_line := l1 } l2).2, ?_⟩
      rw [processLines_step s l1 _ _
          (stepLine_notinList_default s l1 hfm hl1
            (fun hc => Bool.noConfusion (hfirst.symm.trans hc.1)) hil')
          (l2 :: rest)]
      rw [processLines_cons]
      rw [stepLine_item { s with first := false, last_line := l1 }
          l2 hfm hl2]
      have hn : needSeparator { s with first := false, last_line := l1 }
          (indentOf l2) (markerOf l2) (classOf l2) = true := by
        simp [needSeparator, hil', hne]
      rw [hn]
      rfl
  · intro k s l rest hfm hfirst hil hne hnl
    obtain ⟨s', he, h1', h2', h3'⟩ :=
      blanks_in_list_run k s hfm hil hfirst (l :: rest)
    refine ⟨{ s' with first := false, in_list := false,
                      prev_marker := .none, prev_list_class := .none,
                      last_line := l }, ?_⟩
    rw [he]
    rw [processLines_step s' l _ _
        (stepLine_prose_inList s' l h1' hnl hne
          (fun hc => Bool.noConfusion (h3'.symm.trans hc.1)) h2') rest]
    rfl
  · intro k s l1 l2 rest hfm hfirst hne hl1 hl2
    by_cases hil : s.in_list = true
    · rw [if_pos hil]
      refine ⟨(stepLine { s with first := false, in_list := false,
                                 prev_marker := .none,
                                 prev_list_class := .none,
                                 last_line := [] } l2).2, ?_⟩
      rw [processLines_step s l1 _ _
          (stepLine_prose_inList s l1 hfm hl1 hne
            (fun hc => Bool.noConfusion (hfirst.symm.trans hc.1)) hil)
          (List.replicate (k + 1) [] ++ l2 :: rest)]
      rw [blanks_then_item k { s with first := false, in_list := false,
                                      prev_marker := .none,
                                      prev_list_class := .none,
                                      last_line := l1 }
          hfm rfl l2 hl2 rest]
    · have hil' : s.in_list = false := by
        cases hq : s.in_list with
        | false => rfl
        | true => exact absurd hq hil
      rw [if_neg hil]
      refine ⟨(stepLine { s with first := false, last_line := [] } l2).2, ?_⟩
      rw [processLines_step s l1 _ _
          (stepLine_notinList_default s l1 hfm hl1
            (fun hc => Bool.noConfusion (hfirst.symm.trans hc.1)) hil')
          (List.replicate (k + 1) [] ++ l2 :: rest)]
      rw [blanks_then_item k { s with first := false, last_line := l1 }
          hfm hil' l2 hl2 rest]

/-- Witness for the amended C4 at concrete inputs: prose `x` directly
followed by `- a` gets exactly one separating blank. -/
theorem boundary_blank_amended_witness :
    ∃ s' : AwkState,
      processLines afterMetaState (['x'] :: ['-', ' ', 'a'] :: []) =
        (if afterMetaState.in_list = true then [[], ['x']] else [['x']]) ++
          [] :: ['-', ' ', 'a'] :: processLines s' [] :=
  boundary_blank_amended.1 afterMetaState ['x'] ['-', ' ', 'a'] []
    rfl rfl (by decide) (by decide) (by decide)

/-- C10: a blank line encountered while inside an active list block is
never emitted when only blanks remain: an input ending in a list item
followed by blank lines loses all of them. -/
theorem trailing_blanks_deleted :
    (∀ (k : Nat) (s : AwkState), s.in_frontmatter = false →
        s.in_list = true → processLines s (List.replicate k []) = []) ∧
    process_markdown [['-', ' ', 'a'], [], []] = [['-', ' ', 'a']] := by
  constructor
  · intro k
    induction k with
    | zero => intro s _ _; rfl
    | succ k ih =>
      intro s h1 h2
      rw [List.replicate_succ]
      rw [processLines_step s [] _ _ (stepLine_blank_inList s h1 h2)
          (List.replicate k [])]
      rw [ih { s with first := false, last_line := [] } h1 h2]
      rfl
  · decide

/-- Witness for C10 at a concrete reachable in-list state. -/
theorem trailing_blanks_deleted_witness :
    processLines inListState (List.replicate 2 []) = [] :=
  trailing_blanks_deleted.1 2 inListState rfl rfl

/-- Witness for C3 at a concrete input: a metadata block whose body even
contains a list-item-shaped line. -/
theorem metadata_block_preserved_witness :
    process_markdown
        (fenceLine :: ([['-', ' ', 'a']] ++ fenceLine :: [['-', ' ', 'b']])) =
      fenceLine :: ([['-', ' ', 'a']] ++
        fenceLine :: processLines afterMetaState [['-', ' ', 'b']]) ∧
    afterMetaState.in_frontmatter = false ∧ afterMetaState.first = false ∧
    (∀ (s : AwkState) (x : Line), s.first = false →
      s.in_frontmatter = false →
      (stepLine s x).2.first = false ∧
        (stepLine s x).2.in_frontmatter = false) :=
  metadata_block_preserved [['-', ' ', 'a']] [['-', ' ', 'b']] (by decide)

/-- The record splitter never returns an empty record list. -/
theorem splitLinesAux_ne_nil : ∀ (c acc : List Char), splitLinesAux acc c ≠ [] := by
  intro c
  induction c with
  | nil => intro acc; simp [splitLinesAux]
  | cons ch rest ih =>
    intro acc
    simp only [splitLinesAux]
    by_cases hch : ch = '\n'
    · rw [if_pos hch]
      cases rest with
      | nil => simp
      | cons c2 r2 => simp
    · rw [if_neg hch]
      exact ih (ch :: acc)

theorem splitLines_ne_nil (c : List Char) (h : c ≠ []) : splitLines c ≠ [] := by
  unfold splitLines
  rw [if_neg h]
  exact splitLinesAux_ne_nil c []

/-- From a state outside a list block, processing any record prints at
least one line. -/
theorem stepLine_fst_ne_nil (s : AwkState) (x : Line)
    (hil : s.in_list = false) : (stepLine s x).1 ≠ [] := by
  by_cases hA : s.first = true ∧ x = fenceLine
  · obtain ⟨hA1, hA2⟩ := hA
    subst hA2
    rw [stepLine_fm_open s hA1]
    simp
  · by_cases hB : s.in_frontmatter = true ∧ x = fenceLine
    · obtain ⟨hB1, hB2⟩ := hB
      subst hB2
      have hf : s.first = false := by
        cases hq : s.first with
        | false => rfl
        | true => exact absurd ⟨hq, rfl⟩ hA
      rw [stepLine_fm_close s hf hB1]
      simp
    · by_cases hC : s.in_frontmatter = true
      · have hx : x ≠ fenceLine := fun he => hB ⟨hC, he⟩
        rw [stepLine_fm_content s x hC hx]
        simp
      · by_cases hD : isListItem x = true
        · simp only [stepLine, if_neg hA, if_neg hB, if_neg hC, if_pos hD]
          cases needSeparator s (indentOf x) (markerOf x) (classOf x) with
          | false => simp
          | true => simp
        · simp [stepLine, hA, hB, hC, hD, hil]

theorem processLines_ne_nil (s : AwkState) (x : Line) (rest : List Line)
    (hil : s.in_list = false) : processLines s (x :: rest) ≠ [] := by
  rw [processLines_cons]
  intro h
  exact stepLine_fst_ne_nil s x hil (List.append_eq_nil.mp h).1

theorem endsWithNewline_cons_of (a : Char) (r : List Char)
    (h : endsWithNewline r = true) : endsWithNewline (a :: r) = true := by
  unfold endsWithNewline at *
  cases r with
  | nil => simp at h
  | cons b t => rw [List.getLast?_cons_cons]; exact h

theorem endsWithNewline_append_of (a : List Char) (r : List Char)
    (h : endsWithNewline r = true) : endsWithNewline (a ++ r) = true := by
  unfold endsWithNewline at *
  cases r with
  | nil => simp at h
  | cons b t => rw [List.getLast?_append_cons]; exact h

/-- The rendering of a non-empty record list ends with a newline. -/
theorem render_ends_newline : ∀ (ls : List Line), ls ≠ [] →
    endsWithNewline (render ls) = true := by
  intro ls
  induction ls with
  | nil => intro h; exact absurd rfl h
  | cons l ls ih =>
    intro _
    show endsWithNewline (l ++ '\n' :: render ls) = true
    cases ls with
    | nil => simp [render, endsWithNewline]
    | cons l2 ls2 =>
      apply endsWithNewline_append_of
      apply endsWithNewline_cons_of
      exact ih (List.cons_ne_nil _ _)

theorem dropWhile_head?_not (p : Char → Bool) : ∀ (l : List Char) (a : Char),
    (l.dropWhile p).head? = some a → p a = false := by
  intro l
  induction l with
  | nil => intro a h; simp [List.dropWhile] at h
  | cons c t ih =>
    intro a h
    rw [List.dropWhile_cons] at h
    by_cases hp : p c = true
    · rw [if_pos hp] at h
      exact ih a h
    · rw [if_neg hp] at h
      simp at h
      rw [← h]
      cases hpc : p c with
      | false => rfl
      | true => exact absurd hpc hp

/-- The `trimEnd` output never ends with a newline. -/
theorem trimEnd_not_newline (z : List Char) :
    endsWithNewline (trimEnd z) = false := by
  unfold trimEnd endsWithNewline
  rw [List.getLast?_reverse]
  cases hh : (z.reverse.dropWhile jsWhitespace).head? with
  | none => rfl
  | some a =>
    have hws := dropWhile_head?_not jsWhitespace z.reverse a hh
    have ha : a ≠ '\n' := by
      intro he
      rw [he] at hws
      exact absurd hws (by decide)
    simp [ha]

/-- C5: the result of the `formatFile` content pipeline ends with a line
terminator exactly when the input content does: the final trailing
newline is preserved for every input. -/
theorem trailing_newline_preserved (content : List Char) :
    endsWithNewline (formatFileContent content) = endsWithNewline content := by
  unfold formatFileContent
  cases he : endsWithNewline content with
  | false =>
    show endsWithNewline
        (trimEnd (render (process_markdown (splitLines (content ++ ['\n'])))))
        = false
    exact trimEnd_not_newline _
  | true =>
    have hc : content ≠ [] := by
      intro h
      rw [h] at he
      simp [endsWithNewline] at he
    show endsWithNewline (render (process_markdown (splitLines content))) = true
    apply render_ends_newline
    have h1 : splitLines content ≠ [] := splitLines_ne_nil content hc
    cases hs : splitLines content with
    | nil => exact absurd hs h1
    | cons x rest => exact processLines_ne_nil initState x rest rfl


/-- Path `D` starts with `P + '/'` exactly when `D` starts with `P` and has
the separator right after it (the `charAt` test of the third disjunct). -/
theorem prefix_slash_iff (p fp : Line) :
    (p ++ ['/']) <+: fp ↔ (p <+: fp ∧ fp[p.length]? = some '/') := by
  constructor
  · intro h
    obtain ⟨t, ht⟩ := h
    constructor
    · exact ⟨'/' :: t, by rw [← ht]; simp⟩
    · rw [← ht, List.append_assoc,
          List.getElem?_append_right (le_refl _)]
      simp
  · rintro ⟨⟨t, rfl⟩, hget⟩
    rw [List.getElem?_append_right (le_refl _)] at hget
    simp at hget
    cases t with
    | nil => simp at hget
    | cons c t' =>
      simp at hget
      exact ⟨t', by rw [← hget]; simp⟩

/-- The `isInFolder` test computes exactly the specification's
applicability predicate. -/
theorem isInFolder_iff (fp p : Line) :
    isInFolder fp p = true ↔ appliesTo fp p := by
  simp only [isInFolder, appliesTo, Bool.or_eq_true, Bool.and_eq_true,
    List.isPrefixOf_iff_prefix, beq_iff_eq]
  rw [← prefix_slash_iff p fp]
  tauto

theorem isPrefix_of_appliesTo {fp p : Line} (h : appliesTo fp p) : p <+: fp := by
  cases h with
  | inl h => rw [h]
  | inr h => exact (List.prefix_append p ['/']).trans h

/-- Two applicable folder paths with the same number of separators are
equal: a strict extension of an applicable path must start its extension
with a separator, adding one to the count. -/
theorem appliesTo_eq_of_prefix_count {fp p1 p2 : Line} (hp : p1 <+: p2)
    (h1 : appliesTo fp p1) (h2 : appliesTo fp p2)
    (hc : p1.count '/' = p2.count '/') : p1 = p2 := by
  obtain ⟨e, rfl⟩ := hp
  have hce : e.count '/' = 0 := by
    rw [List.count_append] at hc
    omega
  cases e with
  | nil => simp
  | cons c e' =>
    exfalso
    cases h1 with
    | inl hfp =>
      have hlen := (isPrefix_of_appliesTo h2).length_le
      rw [hfp] at hlen
      simp [List.length_append] at hlen
    | inr hsl =>
      obtain ⟨t1, ht1⟩ := hsl
      rw [List.append_assoc] at ht1
      cases h2 with
      | inl hfp2 =>
        rw [hfp2] at ht1
        have hcl := List.append_cancel_left ht1
        injection hcl with hc1 hc2
        rw [← hc1] at hce
        simp at hce
      | inr hsl2 =>
        obtain ⟨t2, ht2⟩ := hsl2
        have ht2a : p1 ++ (c :: (e' ++ '/' :: t2)) = fp := by
          rw [← ht2]
          simp
        have heq : ('/' : Char) :: t1 = c :: (e' ++ '/' :: t2) :=
          List.append_cancel_left (ht1.trans ht2a.symm)
        injection heq with hc1 hc2
        rw [← hc1] at hce
        simp at hce

theorem appliesTo_depth_ne (fp p1 p2 : Line) (hne : p1 ≠ p2)
    (h1 : appliesTo fp p1) (h2 : appliesTo fp p2) :
    pathDepth p1 ≠ pathDepth p2 := by
  intro hd
  have hc : p1.count '/' = p2.count '/' := by
    unfold pathDepth at hd
    omega
  rcases List.prefix_or_prefix_of_prefix (isPrefix_of_appliesTo h1)
      (isPrefix_of_appliesTo h2) with hp | hp
  · exact hne (appliesTo_eq_of_prefix_count hp h1 h2 hc)
  · exact hne (appliesTo_eq_of_prefix_count hp h2 h1 hc.symm).symm

/-- The rule loop never changes its accumulator when every applicable
rule is at most as deep as the current maximum. -/
theorem loop_no_update (fp : Line) : ∀ (rules : List (Line × Bool))
    (m : Int) (cur : Bool),
    (∀ r ∈ rules, isInFolder fp r.1 = true → (pathDepth r.1 : Int) ≤ m) →
    shouldAutoFormatLoop fp rules m cur = cur := by
  intro rules
  induction rules with
  | nil => intro m cur _; rfl
  | cons hd rest ih =>
    intro m cur h
    obtain ⟨p, en⟩ := hd
    simp only [shouldAutoFormatLoop]
    by_cases hin : isInFolder fp p = true
    · rw [if_pos hin]
      have hle : (pathDepth p : Int) ≤ m :=
        h (p, en) (List.mem_cons_self _ _) hin
      rw [if_neg (by omega)]
      exact ih m cur (fun r hr hq => h r (List.mem_cons_of_mem _ hr) hq)
    · rw [if_neg hin]
      exact ih m cur (fun r hr hq => h r (List.mem_cons_of_mem _ hr) hq)

/-- The rule loop returns the flag of an applicable rule that strictly
beats the running maximum and dominates every other applicable rule. -/
theorem loop_max (fp : Line) : ∀ (rules : List (Line × Bool)) (m : Int)
    (cur : Bool) (r : Line × Bool), r ∈ rules →
    isInFolder fp r.1 = true → m < (pathDepth r.1 : Int) →
    (∀ rx ∈ rules, isInFolder fp rx.1 = true →
        pathDepth rx.1 ≤ pathDepth r.1) →
    (∀ rx ∈ rules, isInFolder fp rx.1 = true →
        pathDepth rx.1 = pathDepth r.1 → rx.2 = r.2) →
    shouldAutoFormatLoop fp rules m cur = r.2 := by
  intro rules
  induction rules with
  | nil => intro m cur r hr _ _ _ _; exact absurd hr (List.not_mem_nil r)
  | cons hd rest ih =>
    intro m cur r hr hin hm hmax heq
    obtain ⟨p, en⟩ := hd
    simp only [shouldAutoFormatLoop]
    by_cases hpin : isInFolder fp p = true
    · rw [if_pos hpin]
      have hdep : pathDepth p ≤ pathDepth r.1 :=
        hmax (p, en) (List.mem_cons_self _ _) hpin
      by_cases hlt : m < (pathDepth p : Int)
      · rw [if_pos hlt]
        by_cases hde : pathDepth p = pathDepth r.1
        · have hen : en = r.2 := heq (p, en) (List.mem_cons_self _ _) hpin hde
          rw [hen]
          apply loop_no_update
          intro rx hrx hinx
          have hle : pathDepth rx.1 ≤ pathDepth r.1 :=
            hmax rx (List.mem_cons_of_mem _ hrx) hinx
          rw [← hde] at hle
          exact_mod_cast hle
        · have hrrest : r ∈ rest := by
            rcases List.mem_cons.mp hr with heqr | htail
            · exact absurd (by rw [heqr]) hde
            · exact htail
          have hmx : (pathDepth p : Int) < (pathDepth r.1 : Int) := by
            exact_mod_cast lt_of_le_of_ne hdep hde
          exact ih (pathDepth p : Int) en r hrrest hin hmx
            (fun rx hrx hq => hmax rx (List.mem_cons_of_mem _ hrx) hq)
            (fun rx hrx hq hdx => heq rx (List.mem_cons_of_mem _ hrx) hq hdx)
      · rw [if_neg hlt]
        have hrrest : r ∈ rest := by
          rcases List.mem_cons.mp hr with heqr | htail
          · exfalso
            rw [heqr] at hm
            exact hlt hm
          · exact htail
        exact ih m cur r hrrest hin hm
          (fun rx hrx hq => hmax rx (List.mem_cons_of_mem _ hrx) hq)
          (fun rx hrx hq hdx => heq rx (List.mem_cons_of_mem _ hrx) hq hdx)
    · rw [if_neg hpin]
      have hrrest : r ∈ rest := by
        rcases List.mem_cons.mp hr with heqr | htail
        · exfalso
          rw [heqr] at hin
          exact hpin hin
        · exact htail
      exact ih m cur r hrrest hin hm
        (fun rx hrx hq => hmax rx (List.mem_cons_of_mem _ hrx) hq)
        (fun rx hrx hq hdx => heq rx (List.mem_cons_of_mem _ hrx) hq hdx)

/-- C6: a folder rule applies to a document path exactly when the path
equals the folder or extends it past a separator; with no applicable
rule the global default is returned unchanged; two distinct applicable
folder paths always have different segment counts; among applicable
rules, one of maximal depth determines the result; and the rules
`Notes` (disabled) and `Notes/Daily` (enabled) resolve
`Notes/Daily/today.md` to enabled, `Notes/other.md` to disabled and
`Other/x.md` to the global default. -/
theorem folder_resolution :
    (∀ (fp p : Line), isInFolder fp p = true ↔ appliesTo fp p) ∧
    (∀ (rules : List (Line × Bool)) (dflt : Bool) (fp : Line),
        (∀ r ∈ rules, ¬ appliesTo fp r.1) →
        shouldAutoFormatFile rules dflt fp = dflt) ∧
    (∀ (fp p1 p2 : Line), p1 ≠ p2 → appliesTo fp p1 → appliesTo fp p2 →
        pathDepth p1 ≠ pathDepth p2) ∧
    (∀ (rules : List (Line × Bool)) (dflt : Bool) (fp : Line)
        (r : Line × Bool), (rules.map Prod.fst).Nodup → r ∈ rules →
        appliesTo fp r.1 →
        (∀ rx ∈ rules, appliesTo fp rx.1 → pathDepth rx.1 ≤ pathDepth r.1) →
        shouldAutoFormatFile rules dflt fp = r.2) ∧
    (∀ dflt : Bool,
        shouldAutoFormatFile demoRules dflt dailyNote = true ∧
        shouldAutoFormatFile demoRules dflt otherNote = false ∧
        shouldAutoFormatFile demoRules dflt outsideNote = dflt) := by
  refine ⟨isInFolder_iff, ?_, appliesTo_depth_ne, ?_, ?_⟩
  · intro rules dflt fp h
    unfold shouldAutoFormatFile
    apply loop_no_update
    intro r hr hin
    exact absurd ((isInFolder_iff fp r.1).mp hin) (h r hr)
  · intro rules dflt fp r hnd hr happ hmax
    unfold shouldAutoFormatFile
    apply loop_max fp rules (-1) dflt r hr ((isInFolder_iff fp r.1).mpr happ)
    · have h0 : (0 : Int) ≤ (pathDepth r.1 : Int) := Int.natCast_nonneg _
      omega
    · exact fun rx hrx hinx => hmax rx hrx ((isInFolder_iff fp rx.1).mp hinx)
    · intro rx hrx hinx hdx
      have happx := (isInFolder_iff fp rx.1).mp hinx
      by_cases hpe : rx.1 = r.1
      · have hrr : rx = r := List.inj_on_of_nodup_map hnd hrx hr hpe
        rw [hrr]
      · exact absurd hdx (appliesTo_depth_ne fp rx.1 r.1 hpe happx happ)
  · intro dflt
    cases dflt with
    | false => exact ⟨by decide, by decide, by decide⟩
    | true => exact ⟨by decide, by decide, by decide⟩

/-- Witness for C6: the deepest-rule conjunct applied at the concrete
demo table resolves `Notes/Daily/today.md` by the `Notes/Daily` rule. -/
theorem folder_resolution_witness :
    shouldAutoFormatFile demoRules false dailyNote = true :=
  folder_resolution.2.2.2.1 demoRules false dailyNote (notesDailyPath, true)
    (by decide) (by decide)
    (Or.inr ⟨['t', 'o', 'd', 'a', 'y', '.', 'm', 'd'], by decide⟩)
    (by
      intro rx hrx hax
      fin_cases hrx <;> decide)

/-- C7: every `formatFile` trace starts by adding the path to the guard
set and ends by removing it, with only modifications in between; a
formatter failure yields no modification at all; the formatter choice
uses mdformat exactly when requested and available, returning its result
even on failure (no silent fallback to the script); and `runMdformat`
rejects on spawn errors, non-zero exit codes and empty output. -/
theorem format_guard_discipline :
    (∀ (content : Line) (r : Except FmtError Line),
        ∃ mid : List FileEvent,
          formatFileTrace content r =
            .guardAdd :: mid ++ [.guardRemove] ∧
          ∀ e ∈ mid, ∃ c, e = .modifyContent c) ∧
    (∀ (content : Line) (err : FmtError),
        formatFileTrace content (.error err) =
          [FileEvent.guardAdd, FileEvent.guardRemove]) ∧
    (∀ (u a pset : Bool) (mdRes scriptRes : Except FmtError Line),
        (u && a && pset) = true →
        runFormatter u a pset mdRes scriptRes = mdRes) ∧
    (∀ (msg : Line) (code : Int) (stdout stderr : Line),
        runMdformat (some msg) code stdout stderr =
          .error (.spawnError msg)) ∧
    (∀ (code : Int) (stdout stderr : Line), code ≠ 0 →
        runMdformat none code stdout stderr =
          .error (.exitCode code stderr)) ∧
    (∀ stderr : Line, runMdformat none 0 [] stderr = .error .emptyOutput) := by
  refine ⟨?_, ?_, ?_, ?_, ?_, ?_⟩
  · intro content r
    cases r with
    | error e => exact ⟨[], rfl, by simp⟩
    | ok f =>
      by_cases hr : (if endsWithNewline content = true then f
          else trimEnd f) ≠ content
      · refine ⟨[.modifyContent (if endsWithNewline content = true then f
            else trimEnd f)], ?_, ?_⟩
        · simp only [formatFileTrace, if_pos hr]
          rfl
        · intro e he
          rw [List.mem_singleton] at he
          exact ⟨_, he⟩
      · refine ⟨[], ?_, by simp⟩
        simp only [formatFileTrace, if_neg hr]
        rfl
  · intro content err
    rfl
  · intro u a pset mdRes scriptRes h
    simp [runFormatter, h]
  · intro msg code stdout stderr
    rfl
  · intro code stdout stderr h
    simp [runMdformat, h]
  · intro stderr
    rfl

/-- Witness for C7: when mdformat is selected and fails with empty
output, the failure is returned and the script result is not used. -/
theorem format_guard_discipline_witness :
    runFormatter true true true (Except.error FmtError.emptyOutput)
        (Except.ok ['x']) = Except.error FmtError.emptyOutput :=
  format_guard_discipline.2.2.1 true true true (.error .emptyOutput)
    (.ok ['x']) (by decide)

/-- C8 counterexample: two manual format commands, or an event-based
trigger racing an already-armed debounce timer, put two `formatFile`
invocations for the same document in flight at once, so "at most one
invocation ever in flight under every interleaving" fails. -/
theorem single_flight_counterexample :
    (runSched [.manualFormat, .manualFormat]).inflight = 2 ∧
    (runSched [.editorChange true, .eventTrigger true,
        .timerFire true false false]).inflight = 2 ∧
    ¬(2 ≤ 1) :=
  ⟨by decide, by decide, by decide⟩

theorem schedStep_invA (s : SchedulerState) (e : SchedEvent)
    (hA : SchedInvA s)
    (he : (∀ sf vm sel, e ≠ .timerFire sf vm sel) ∧ e ≠ .manualFormat) :
    SchedInvA (schedStep s e) := by
  obtain ⟨h1, h2⟩ := hA
  cases e with
  | editorChange sf =>
    by_cases hg : s.guard = true
    · simpa [schedStep, hg] using ⟨h1, h2⟩
    · by_cases hsf : sf = true
      · simp only [schedStep, if_neg hg, if_pos hsf]
        exact ⟨h1, h2⟩
      · simpa [schedStep, hg, hsf] using ⟨h1, h2⟩
  | timerFire sf vm sel => exact absurd rfl (he.1 sf vm sel)
  | manualFormat => exact absurd rfl he.2
  | eventTrigger sf =>
    by_cases hsf : sf = false
    · simpa [schedStep, hsf] using ⟨h1, h2⟩
    · by_cases hg : s.guard = true
      · simpa [schedStep, hsf, hg] using ⟨h1, h2⟩
      · have hgf : s.guard = false := by
          cases hq : s.guard with
          | false => rfl
          | true => exact absurd hq hg
        have h0 : s.inflight = 0 := h2 hgf
        simp only [schedStep, if_neg hsf, if_neg hg]
        exact ⟨by show s.inflight + 1 ≤ 1; omega,
               fun hq => Bool.noConfusion hq⟩
  | formatFinish =>
    by_cases hz : s.inflight = 0
    · simpa [schedStep, hz] using ⟨h1, h2⟩
    · simp only [schedStep, if_neg hz]
      exact ⟨by show s.inflight - 1 ≤ 1; omega,
             fun _ => by show s.inflight - 1 = 0; omega⟩

theorem schedStep_invB (s : SchedulerState) (e : SchedEvent)
    (hB : SchedInvB s)
    (he : e ≠ .manualFormat ∧ (∀ sf, e ≠ .eventTrigger sf)) :
    SchedInvB (schedStep s e) := by
  obtain ⟨h1, h2, h3⟩ := hB
  cases e with
  | editorChange sf =>
    by_cases hg : s.guard = true
    · simpa [schedStep, hg] using ⟨h1, h2, h3⟩
    · by_cases hsf : sf = true
      · simp only [schedStep, if_neg hg, if_pos hsf]
        exact ⟨h1, h2, fun hq => absurd hq hg⟩
      · simpa [schedStep, hg, hsf] using ⟨h1, h2, h3⟩
  | manualFormat => exact absurd rfl he.1
  | eventTrigger sf => exact absurd rfl (he.2 sf)
  | timerFire sf vm sel =>
    by_cases ha : s.timerArmed = false
    · simpa [schedStep, ha] using ⟨h1, h2, h3⟩
    · have hat : s.timerArmed = true := by
        cases hq : s.timerArmed with
        | true => rfl
        | false => exact absurd hq ha
      have hgf : s.guard = false := by
        cases hq : s.guard with
        | false => rfl
        | true => exact absurd (h3 hq) (by rw [hat]; exact Bool.noConfusion)
      have h0 : s.inflight = 0 := h2 hgf
      by_cases hsf : sf = true
      · by_cases hvs : (vm && sel) = true
        · simp only [schedStep, if_neg ha, if_pos hsf, if_pos hvs]
          exact ⟨h1, h2, fun hq => absurd hq (by rw [hgf]; exact Bool.noConfusion)⟩
        · simp only [schedStep, if_neg ha, if_pos hsf, if_neg hvs]
          exact ⟨by show s.inflight + 1 ≤ 1; omega,
                 fun hq => Bool.noConfusion hq, fun _ => rfl⟩
      · simp only [schedStep, if_neg ha, if_neg hsf]
        exact ⟨h1, h2, fun hq => absurd hq (by rw [hgf]; exact Bool.noConfusion)⟩
  | formatFinish =>
    by_cases hz : s.inflight = 0
    · simpa [schedStep, hz] using ⟨h1, h2, h3⟩
    · simp only [schedStep, if_neg hz]
      exact ⟨by show s.inflight - 1 ≤ 1; omega,
             fun _ => by show s.inflight - 1 = 0; omega,
             fun hq => Bool.noConfusion hq⟩

theorem runSched_invA : ∀ (events : List SchedEvent) (s : SchedulerState),
    SchedInvA s →
    (∀ e ∈ events, (∀ sf vm sel, e ≠ .timerFire sf vm sel) ∧
        e ≠ .manualFormat) →
    SchedInvA (events.foldl schedStep s) := by
  intro events
  induction events with
  | nil => intro s h _; exact h
  | cons e rest ih =>
    intro s h hall
    rw [List.foldl_cons]
    exact ih (schedStep s e)
      (schedStep_invA s e h (hall e (List.mem_cons_self _ _)))
      (fun ex hex => hall ex (List.mem_cons_of_mem _ hex))

theorem runSched_invB : ∀ (events : List SchedEvent) (s : SchedulerState),
    SchedInvB s →
    (∀ e ∈ events, e ≠ .manualFormat ∧ (∀ sf, e ≠ .eventTrigger sf)) →
    SchedInvB (events.foldl schedStep s) := by
  intro events
  induction events with
  | nil => intro s h _; exact h
  | cons e rest ih =>
    intro s h hall
    rw [List.foldl_cons]
    exact ih (schedStep s e)
      (schedStep_invB s e h (hall e (List.mem_cons_self _ _)))
      (fun ex hex => hall ex (List.mem_cons_of_mem _ hex))

/-- C8 amended: the at-most-one-in-flight guarantee holds for the event
sources that consult the guard — runs of edit events and event-based
(open/focus) triggers — and separately for pure debounce runs of edit
events and timer fires, where arming is blocked while the guard is held;
but a manual format command, or a timer armed before an event-based
trigger started a pipeline, can put a second invocation in flight. -/
theorem single_flight_amended :
    (∀ events : List SchedEvent,
        (∀ e ∈ events, (∀ sf vm sel, e ≠ .timerFire sf vm sel) ∧
            e ≠ .manualFormat) →
        (runSched events).inflight ≤ 1) ∧
    (∀ events : List SchedEvent,
        (∀ e ∈ events, e ≠ .manualFormat ∧ (∀ sf, e ≠ .eventTrigger sf)) →
        (runSched events).inflight ≤ 1) := by
  constructor
  · intro events h
    exact (runSched_invA events initSched ⟨Nat.zero_le _, fun _ => rfl⟩ h).1
  · intro events h
    exact (runSched_invB events initSched
      ⟨Nat.zero_le _, fun _ => rfl, fun hq => Bool.noConfusion hq⟩ h).1

/-- Witness for the amended C8 on a concrete guarded run. -/
theorem single_flight_amended_witness :
    (runSched [.editorChange true, .eventTrigger true,
        .eventTrigger true]).inflight ≤ 1 :=
  single_flight_amended.1 [.editorChange true, .eventTrigger true,
      .eventTrigger true]
    (by
      intro e he
      fin_cases he <;> exact ⟨fun sf vm sel => by simp, by simp⟩)

/-- C9: when the debounce timer fires while the matching foreground view
has a non-empty selection, the callback reschedules instead of
formatting: `hasActiveSelection` is true, the outcome is `rescheduled`,
and the scheduler transition leaves the timer armed and starts no
`formatFile` invocation (no write-back). -/
theorem selection_deferral (selection : Line) (g : Bool) (n : Nat)
    (hsel : selection ≠ []) :
    hasActiveSelection selection = true ∧
    timerFireOutcome true true (hasActiveSelection selection) =
      .rescheduled ∧
    schedStep ⟨true, g, n⟩ (.timerFire true true true) = ⟨true, g, n⟩ := by
  have hs : hasActiveSelection selection = true := by
    simp [hasActiveSelection, List.length_pos, hsel]
  refine ⟨hs, ?_, ?_⟩
  · rw [hs]
    rfl
  · rfl

/-- Witness for C9 at a concrete one-character selection. -/
theorem selection_deferral_witness :
    hasActiveSelection ['a'] = true ∧
    timerFireOutcome true true (hasActiveSelection ['a']) =
      .rescheduled ∧
    schedStep ⟨true, false, 0⟩ (.timerFire true true true) =
      ⟨true, false, 0⟩ :=
  selection_deferral ['a'] false 0 (by decide)

end TightLists

